import Mathlib

/-!
Verification of the fixed-point CORDIC trigonometric kernel
(`PVG_FT_*` functions from the vendored FreeType-derived `fttrigon` code).

The kernel operates on signed 32-bit fixed-point values (16.16 format) and
angles (degrees × 2^16).  We embed the functions over `Int`: on the domains
exercised by the claims the C computations never wrap (intermediates use
64-bit arithmetic and inputs are assumed to fit in 32 bits, as stated in the
source comments), so ordinary integer arithmetic is the faithful model.
Arithmetic right shift on a (possibly negative) value is floor division by a
power of two, written `sar`.

The C `while` loops are embedded as structural recursion on an explicit trip
budget (`…Go` functions); each wrapper supplies a budget that is provably
large enough, so the `…Go` form satisfies exactly the loop's equation
(`loop_eq` lemmas below).  The `for (i = 1; i < 23; ...)` micro-step loops
run exactly 22 iterations and take the budget 22 directly.
-/

namespace PVGFT

/-- `PVG_FT_ANGLE_PI = 180 << 16`. -/
def anglePI : Int := 180 * 65536

/-- `PVG_FT_ANGLE_2PI = PI * 2`. -/
def angle2PI : Int := anglePI * 2

/-- `PVG_FT_ANGLE_PI2 = PI / 2`. -/
def anglePI2 : Int := anglePI / 2

/-- `PVG_FT_ANGLE_PI4 = PI / 4`. -/
def anglePI4 : Int := anglePI / 4

/-- `PVG_FT_TRIG_SCALE = 0xDBD95B16`, the CORDIC shrink factor times `2^32`. -/
def trigScale : Int := 0xDBD95B16

/-- Arithmetic shift right by `i` bits: floor division by `2^i`
(this is what the C `>>` does on the two's-complement values involved). -/
def sar (v : Int) (i : Nat) : Int := Int.fdiv v (2 ^ i)

/-- `ft_trig_arctan_table`: arctan(2^-i) in 16.16 degrees, for i = 1..22. -/
def arctanTable : List Int :=
  [1740967, 919879, 466945, 234379, 117304, 58666, 29335, 14668,
   7334, 3667, 1833, 917, 458, 229, 115, 57, 29, 14, 7, 4, 2, 1]

/-- Table entry used at micro-step `i` (1-based); `tbl i = arctanTable[i-1]`. -/
def tbl (i : Nat) : Int := arctanTable.getD (i - 1) 0

/-- A planar vector of two fixed-point scalars (`PVG_FT_Vector`). -/
structure Vec where
  x : Int
  y : Int
deriving DecidableEq, Repr

/-- `PVG_FT_MulFix`: sign-extract both operands, multiply with round-half-up,
reapply the sign.  (`((PVG_FT_Int64)a * b + 0x8000) >> 16` on the magnitudes.) -/
def mulFix (a b : Int) : Int :=
  let s : Int := 1
  let s := if a < 0 then -s else s
  let a := if a < 0 then -a else a
  let s := if b < 0 then -s else s
  let b := if b < 0 then -b else b
  let c := sar (a * b + 0x8000) 16
  if s > 0 then c else -c

/-- `PVG_FT_MulDiv`: `round(a*b/c)` with sign normalization; degenerate divisor
(`c ≤ 0` after sign extraction, i.e. original `c = 0`) yields `0x7FFFFFFF`
before the sign is reapplied. -/
def mulDiv (a b c : Int) : Int :=
  let s : Int := 1
  let s := if a < 0 then -s else s
  let a := if a < 0 then -a else a
  let s := if b < 0 then -s else s
  let b := if b < 0 then -b else b
  let s := if c < 0 then -s else s
  let c := if c < 0 then -c else c
  let d := if c > 0 then (a * b + c / 2) / c else 0x7FFFFFFF
  if s > 0 then d else -d

/-- `PVG_FT_DivFix`: `round(a*65536/b)` with sign normalization; `b = 0` yields
`0x7FFFFFFF` before the sign is reapplied. -/
def divFix (a b : Int) : Int :=
  let s : Int := 1
  let s := if a < 0 then -s else s
  let a := if a < 0 then -a else a
  let s := if b < 0 then -s else s
  let b := if b < 0 then -b else b
  let q := if b > 0 then (a * 65536 + b / 2) / b else 0x7FFFFFFF
  if s < 0 then -q else q

/-- Budgeted binary logarithm (`31 - clz`): `msbGo f n` computes the index of
the most significant bit of `n` provided the budget `f` covers the bit
length. -/
def msbGo : Nat → Nat → Nat
  | 0, _ => 0
  | f + 1, n => if n ≥ 2 then msbGo f (n / 2) + 1 else 0

/-- `PVG_FT_MSB` of a positive value: index of the most significant bit
(the budget `n` always suffices since `log2 n ≤ n`). -/
def msb (n : Nat) : Nat := msbGo n n

/-- `ft_trig_prenorm`: scale the vector by a power of two so that the larger
coordinate magnitude has its MSB at bit 29; returns the new vector and the
applied shift (positive = left shift applied). -/
def prenorm (v : Vec) : Vec × Int :=
  let shift := msb (v.x.natAbs ||| v.y.natAbs)
  if shift ≤ 29 then
    let k := 29 - shift
    (⟨v.x * 2 ^ k, v.y * 2 ^ k⟩, (k : Int))
  else
    let k := shift - 29
    (⟨sar v.x k, sar v.y k⟩, -(k : Int))

/-- Loop body budgeted form of
`while (theta < -PI/4) { (x,y) := (y,-x); theta += PI/2 }`
(first reduction loop of `ft_trig_pseudo_rotate`). -/
def rotRed1Go : Nat → Int → Int → Int → Int × Int × Int
  | 0, x, y, θ => (x, y, θ)
  | n + 1, x, y, θ =>
    if θ < -anglePI4 then rotRed1Go n y (-x) (θ + anglePI2) else (x, y, θ)

/-- First reduction loop of `ft_trig_pseudo_rotate`, with a sufficient budget. -/
def rotRed1 (x y θ : Int) : Int × Int × Int :=
  rotRed1Go ((-anglePI4 - θ).toNat / anglePI2.toNat + 1) x y θ

/-- Loop body budgeted form of
`while (theta > PI/4) { (x,y) := (-y,x); theta -= PI/2 }`
(second reduction loop of `ft_trig_pseudo_rotate`). -/
def rotRed2Go : Nat → Int → Int → Int → Int × Int × Int
  | 0, x, y, θ => (x, y, θ)
  | n + 1, x, y, θ =>
    if θ > anglePI4 then rotRed2Go n (-y) x (θ - anglePI2) else (x, y, θ)

/-- Second reduction loop of `ft_trig_pseudo_rotate`, with a sufficient budget. -/
def rotRed2 (x y θ : Int) : Int × Int × Int :=
  rotRed2Go ((θ - anglePI4).toNat / anglePI2.toNat + 1) x y θ

/-- The micro-step loop of `ft_trig_pseudo_rotate`
(`for (i = 1, b = 1; i < 23; b <<= 1, i++)`, direction by sign of `theta`):
`n` iterations remain, `i` is the current index. -/
def rotIterGo : Nat → Nat → Int → Int → Int → Int × Int × Int
  | 0, _, x, y, θ => (x, y, θ)
  | n + 1, i, x, y, θ =>
    let b : Int := 2 ^ (i - 1)
    let v1 := sar (y + b) i
    let v2 := sar (x + b) i
    if θ < 0 then rotIterGo n (i + 1) (x + v1) (y - v2) (θ + tbl i)
    else rotIterGo n (i + 1) (x - v1) (y + v2) (θ - tbl i)

/-- `ft_trig_pseudo_rotate`. -/
def pseudoRotate (v : Vec) (θ : Int) : Vec :=
  let r1 := rotRed1 v.x v.y θ
  let r2 := rotRed2 r1.1 r1.2.1 r1.2.2
  let r := rotIterGo 22 1 r2.1 r2.2.1 r2.2.2
  ⟨r.1, r.2.1⟩

/-- Octant reduction at the top of `ft_trig_pseudo_polarize`: maps the vector
into the sector around the positive x-axis and returns the initial angle
(0, ±PI/2 or ±PI). -/
def polOctant (x y : Int) : Int × Int × Int :=
  if y > x then
    if y > -x then (y, -x, anglePI2)
    else (-x, -y, if y > 0 then anglePI else -anglePI)
  else
    if y < -x then (-y, x, -anglePI2)
    else (x, y, 0)

/-- The micro-step loop of `ft_trig_pseudo_polarize`, direction by the sign
of `y`:  `n` iterations remain, `i` is the current index. -/
def polIterGo : Nat → Nat → Int → Int → Int → Int × Int × Int
  | 0, _, x, y, θ => (x, y, θ)
  | n + 1, i, x, y, θ =>
    let b : Int := 2 ^ (i - 1)
    let v1 := sar (y + b) i
    let v2 := sar (x + b) i
    if y > 0 then polIterGo n (i + 1) (x + v1) (y - v2) (θ + tbl i)
    else polIterGo n (i + 1) (x - v1) (y + v2) (θ - tbl i)

/-- `PVG_FT_PAD_FLOOR(x, n) = x & ~(n-1)` for the power-of-two `n` used here:
clears the low bits, i.e. floors to a multiple of `n` (two's complement). -/
def padFloor (x n : Int) : Int := x - x % n

/-- `PVG_FT_PAD_ROUND(x, n) = PAD_FLOOR(x + n/2, n)`. -/
def padRound (x n : Int) : Int := padFloor (x + n / 2) n

/-- The final angle rounding in `ft_trig_pseudo_polarize`:
nonnegative angles are `PAD_ROUND`ed directly, negative ones via the
magnitude. -/
def roundTheta (θ : Int) : Int :=
  if θ ≥ 0 then padRound θ 32 else -(padRound (-θ) 32)

/-- `ft_trig_pseudo_polarize`: octant reduction, 22 micro-steps driven by the
sign of `y`, then rounding of the accumulated angle.  Result: `⟨x, theta⟩`. -/
def pseudoPolarize (v : Vec) : Vec :=
  let o := polOctant v.x v.y
  let r := polIterGo 22 1 o.1 o.2.1 o.2.2
  ⟨r.1, roundTheta r.2.2⟩

/-- `ft_trig_downscale`: multiply by the CORDIC shrink factor
(`(|val| * PVG_FT_TRIG_SCALE + 0x100000000) >> 32`, sign reapplied). -/
def downscale (val : Int) : Int :=
  let v := sar (val.natAbs * trigScale + 0x100000000) 32
  if val ≥ 0 then v else -v

/-- `PVG_FT_Cos`: pseudo-rotate `(TRIG_SCALE >> 8, 0)` and read the rounded
x-coordinate. -/
def ftCos (angle : Int) : Int :=
  let v := pseudoRotate ⟨sar trigScale 8, 0⟩ angle
  sar (v.x + 0x80) 8

/-- `PVG_FT_Sin(angle) = PVG_FT_Cos(PI/2 - angle)`. -/
def ftSin (angle : Int) : Int := ftCos (anglePI2 - angle)

/-- `PVG_FT_Tan`: ratio y/x of the unscaled pseudo-rotated vector. -/
def ftTan (angle : Int) : Int :=
  let v := pseudoRotate ⟨sar trigScale 8, 0⟩ angle
  divFix v.y v.x

/-- `PVG_FT_Atan2(dx, dy)`: `(0,0)` returns 0 directly; otherwise prenorm and
pseudo-polarize, returning the angle. -/
def ftAtan2 (dx dy : Int) : Int :=
  if dx = 0 ∧ dy = 0 then 0
  else (pseudoPolarize (prenorm ⟨dx, dy⟩).1).y

/-- `PVG_FT_Vector_Rotate`: zero vector unchanged; otherwise prenorm,
pseudo-rotate, downscale both coordinates and undo the prenorm shift
(rounding to nearest on a right shift). -/
def vectorRotate (v : Vec) (angle : Int) : Vec :=
  if v.x = 0 ∧ v.y = 0 then v
  else
    let p := prenorm v
    let w := pseudoRotate p.1 angle
    let rx := downscale w.x
    let ry := downscale w.y
    if p.2 > 0 then
      let k := p.2.toNat
      let half : Int := 2 ^ (k - 1)
      ⟨sar (rx + half - (if rx < 0 then 1 else 0)) k,
       sar (ry + half - (if ry < 0 then 1 else 0)) k⟩
    else
      ⟨rx * 2 ^ (-p.2).toNat, ry * 2 ^ (-p.2).toNat⟩

/-- `PVG_FT_Vector_Length`: trivial fast paths on the axes; otherwise prenorm,
pseudo-polarize, downscale and undo the shift (rounding to nearest). -/
def vectorLength (v : Vec) : Int :=
  if v.x = 0 then |v.y|
  else if v.y = 0 then |v.x|
  else
    let p := prenorm v
    let w := pseudoPolarize p.1
    let l := downscale w.x
    if p.2 > 0 then sar (l + 2 ^ (p.2.toNat - 1)) p.2.toNat
    else l * 2 ^ (-p.2).toNat

/-- `PVG_FT_Vector_Polarize(vec, length, angle)`: the out-parameters are
modelled as in-out state; for the zero vector the function returns without
writing either of them.  The length is `v.x >> shift` (floor, not rounded to
nearest). -/
def vectorPolarize (v : Vec) (length angle : Int) : Int × Int :=
  if v.x = 0 ∧ v.y = 0 then (length, angle)
  else
    let p := prenorm v
    let w := pseudoPolarize p.1
    let l := downscale w.x
    (if p.2 ≥ 0 then sar l p.2.toNat else l * 2 ^ (-p.2).toNat, w.y)

/-- `PVG_FT_Vector_From_Polar(length, angle)`: start from `(length, 0)` and
apply `PVG_FT_Vector_Rotate`. -/
def vectorFromPolar (length angle : Int) : Vec :=
  vectorRotate ⟨length, 0⟩ angle

/-- Loop body budgeted form of `while (delta <= -PI) delta += 2*PI`. -/
def angleDiffUpGo : Nat → Int → Int
  | 0, delta => delta
  | n + 1, delta =>
    if delta ≤ -anglePI then angleDiffUpGo n (delta + angle2PI) else delta

/-- First loop of `PVG_FT_Angle_Diff`, with a sufficient budget. -/
def angleDiffUp (delta : Int) : Int :=
  angleDiffUpGo ((anglePI - delta).toNat / angle2PI.toNat + 1) delta

/-- Loop body budgeted form of `while (delta > PI) delta -= 2*PI`. -/
def angleDiffDownGo : Nat → Int → Int
  | 0, delta => delta
  | n + 1, delta =>
    if delta > anglePI then angleDiffDownGo n (delta - angle2PI) else delta

/-- Second loop of `PVG_FT_Angle_Diff`, with a sufficient budget. -/
def angleDiffDown (delta : Int) : Int :=
  angleDiffDownGo ((delta + anglePI).toNat / angle2PI.toNat + 1) delta

/-- `PVG_FT_Angle_Diff(a1, a2)`. -/
def angleDiff (a1 a2 : Int) : Int := angleDiffDown (angleDiffUp (a2 - a1))

/-- Mathematical reduction of an angle into `(-PI, PI]`, shifted by a whole
number of turns (the interval the specification describes). -/
def reduceAngle (θ : Int) : Int := anglePI - (anglePI - θ) % angle2PI


/-- A 90-degree counterclockwise quarter turn, `(x, y) := (-y, x)`
(the transform applied by the second reduction loop as it subtracts 90°). -/
def qturn (p : Int × Int) : Int × Int := (-p.2, p.1)

/-- A 90-degree clockwise quarter turn, `(x, y) := (y, -x)`
(the transform applied by the first reduction loop as it adds 90°). -/
def qturnInv (p : Int × Int) : Int × Int := (p.2, -p.1)

/-- `k` quarter turns, counterclockwise for `k ≥ 0` and clockwise otherwise. -/
def qturnZ (k : Int) (p : Int × Int) : Int × Int :=
  if 0 ≤ k then qturn^[k.toNat] p else qturnInv^[(-k).toNat] p


/-- Ceiling division by a positive divisor, `-((-a) fdiv b)`. -/
def cdiv (a b : Int) : Int := -(Int.fdiv (-a) b)

/-- Sum of `n` arctan-table entries starting at index `j`. -/
def restGo : Nat → Nat → Int
  | 0, _ => 0
  | n + 1, j => tbl j + restGo n (j + 1)

/-- Total remaining rotation capacity of the micro-step loop from step `j` on. -/
def restSum (j : Nat) : Int := restGo (23 - j) j

/-- Certified interval checker for the polarization angle range.  A call
`exploreAtan fuel j mlo mhi θ` returns `true` only if every execution of the
remaining micro-steps `j..22` of `ft_trig_pseudo_polarize`, started from a
state `(x, y)` with `x ≥ 2^29`, `|y| ≤ x` and
`mlo * x ≤ 2^60 * y ≤ mhi * x`, ends with a rounded angle inside
`[-PI, PI]`.  The ratio interval is transported through each step by exact
monotone endpoint images of the Möbius map of the step, widened by `2^33`
to absorb all floor/ceiling rounding (soundness is `exploreAtan_sound`). -/
def exploreAtan : Nat → Nat → Int → Int → Int → Bool
  | 0, _, _, _, _ => false
  | fuel + 1, j, mlo0, mhi0, θ =>
    let mlo := max mlo0 (-(2 ^ 60))
    let mhi := min mhi0 (2 ^ 60)
    if mhi < mlo then true
    else if 23 ≤ j then decide (-anglePI ≤ roundTheta θ ∧ roundTheta θ ≤ anglePI)
    else if θ + restSum j ≤ anglePI ∧ -anglePI ≤ θ - restSum j then true
    else if mlo < 0 ∧ 0 < mhi ∧ 2 ^ 33 < mhi - mlo then
      exploreAtan fuel j mlo ((mlo + mhi) / 2) θ &&
        exploreAtan fuel j ((mlo + mhi) / 2) mhi θ
    else
      (if 0 < mhi then
          exploreAtan fuel (j + 1)
            (Int.fdiv ((max mlo 0 * 2 ^ j - 2 ^ 60) * 2 ^ 60)
              (2 ^ 60 * 2 ^ j + max mlo 0) - 2 ^ 33)
            (cdiv ((mhi * 2 ^ j - 2 ^ 60) * 2 ^ 60) (2 ^ 60 * 2 ^ j + mhi) + 2 ^ 33)
            (θ + tbl j)
        else true) &&
      (if mlo ≤ 0 then
          exploreAtan fuel (j + 1)
            (Int.fdiv ((mlo * 2 ^ j + 2 ^ 60) * 2 ^ 60) (2 ^ 60 * 2 ^ j - mlo) - 2 ^ 33)
            (cdiv ((min mhi 0 * 2 ^ j + 2 ^ 60) * 2 ^ 60)
              (2 ^ 60 * 2 ^ j - min mhi 0) + 2 ^ 33)
            (θ - tbl j)
        else true)

/-! ## Helper lemmas -/

/-- Rounding bound for the division core shared by `divFix`:
the quotient with round-half added is a nearest integer. -/
theorem divfix_core (A B : Int) (hA : 0 ≤ A) (hB : 0 < B) :
    2 * |((A * 65536 + B / 2) / B) * B - A * 65536| ≤ B := by
  have h1 := Int.emod_add_ediv (A * 65536 + B / 2) B
  have h2 := Int.emod_nonneg (A * 65536 + B / 2) (ne_of_gt hB)
  have h3 := Int.emod_lt_of_pos (A * 65536 + B / 2) hB
  have h5 : ((A * 65536 + B / 2) / B) * B - A * 65536 =
      B / 2 - (A * 65536 + B / 2) % B := by linarith
  rw [h5]
  have htwo : -B ≤ 2 * (B / 2 - (A * 65536 + B / 2) % B) ∧
      2 * (B / 2 - (A * 65536 + B / 2) % B) ≤ B := by omega
  have habs := abs_le.mpr htwo
  rwa [abs_mul, abs_two] at habs

/-- `divFix` in sign-normalized form, for a nonzero divisor. -/
theorem divFix_eq (a b : Int) (hb : b ≠ 0) :
    divFix a b = if ((a < 0) ↔ (b < 0)) then (|a| * 65536 + |b| / 2) / |b|
                 else -((|a| * 65536 + |b| / 2) / |b|) := by
  rcases lt_trichotomy a 0 with ha | ha | ha <;>
    rcases lt_trichotomy b 0 with hbb | hbb | hbb <;> try omega
  all_goals
    simp only [divFix]
  all_goals split_ifs <;> try omega
  all_goals (first
    | rw [abs_of_neg (show a < 0 by omega), abs_of_neg (show b < 0 by omega)]
    | rw [abs_of_neg (show a < 0 by omega), abs_of_pos (show (0:Int) < b by omega)]
    | rw [abs_of_nonneg (show (0:Int) ≤ a by omega), abs_of_neg (show b < 0 by omega)]
    | rw [abs_of_nonneg (show (0:Int) ≤ a by omega), abs_of_pos (show (0:Int) < b by omega)])

/-- The rounding bound for `divFix` with arbitrary signs. -/
theorem divFix_round (a b : Int) (hb : b ≠ 0) :
    2 * |divFix a b * b - a * 65536| ≤ |b| := by
  rw [divFix_eq a b hb]
  split_ifs with hiff
  · rcases lt_trichotomy b 0 with hbb | hbb | hbb
    · have ha : a < 0 := hiff.mpr hbb
      rw [abs_of_neg ha, abs_of_neg hbb,
        show (-a * 65536 + -b / 2) / -b * b - a * 65536 =
          -((-a * 65536 + -b / 2) / -b * -b - -a * 65536) from by ring, abs_neg]
      exact divfix_core (-a) (-b) (by omega) (by omega)
    · omega
    · have ha : ¬ (a < 0) := fun h => absurd (hiff.mp h) (by omega)
      rw [abs_of_nonneg (by omega : (0:Int) ≤ a), abs_of_pos hbb]
      exact divfix_core a b (by omega) hbb
  · rcases lt_trichotomy b 0 with hbb | hbb | hbb
    · have ha : ¬ (a < 0) := fun h => hiff (iff_of_true h hbb)
      rw [abs_of_nonneg (by omega : (0:Int) ≤ a), abs_of_neg hbb,
        show -((a * 65536 + -b / 2) / -b) * b - a * 65536 =
          (a * 65536 + -b / 2) / -b * -b - a * 65536 from by ring]
      exact divfix_core a (-b) (by omega) (by omega)
    · omega
    · have ha : a < 0 := by
        by_contra h
        exact hiff (iff_of_false h (by omega))
      rw [abs_of_neg ha, abs_of_pos hbb,
        show -((-a * 65536 + b / 2) / b) * b - a * 65536 =
          -((-a * 65536 + b / 2) / b * b - -a * 65536) from by ring, abs_neg]
      exact divfix_core (-a) b (by omega) hbb

/-- Behaviour of the budgeted loop `while (delta <= -PI) delta += 2*PI`:
with a sufficient budget the result is the input shifted by whole turns,
lies strictly above `-PI`, and is at most `PI` unless the loop never ran. -/
theorem upGo_spec (n : Nat) : ∀ δ : Int, -anglePI - δ ≤ (n : Int) * angle2PI →
    (∃ k : Int, angleDiffUpGo (n+1) δ = δ + k * angle2PI) ∧
    -anglePI < angleDiffUpGo (n+1) δ ∧
    (angleDiffUpGo (n+1) δ ≤ anglePI ∨ (angleDiffUpGo (n+1) δ = δ ∧ ¬ δ ≤ -anglePI)) := by
  induction n with
  | zero =>
    intro δ h
    simp only [angleDiffUpGo]
    split_ifs with hc
    · refine ⟨⟨1, by ring⟩, ?_, ?_⟩
      · norm_num [anglePI, angle2PI] at h hc ⊢; omega
      · left; norm_num [anglePI, angle2PI] at h hc ⊢; omega
    · exact ⟨⟨0, by ring⟩, by norm_num [anglePI] at hc ⊢; omega, Or.inr ⟨rfl, hc⟩⟩
  | succ n ih =>
    intro δ h
    rw [show angleDiffUpGo (n+1+1) δ =
      (if δ ≤ -anglePI then angleDiffUpGo (n+1) (δ + angle2PI) else δ) from rfl]
    split_ifs with hc
    · have h' : -anglePI - (δ + angle2PI) ≤ (n : Int) * angle2PI := by
        push_cast at h ⊢
        norm_num [anglePI, angle2PI] at h hc ⊢
        omega
      obtain ⟨⟨k, hk⟩, hlt, hle⟩ := ih (δ + angle2PI) h'
      refine ⟨⟨k + 1, by rw [hk]; ring⟩, hlt, ?_⟩
      rcases hle with h1 | ⟨h1, h2⟩
      · exact Or.inl h1
      · left; rw [h1]; norm_num [anglePI, angle2PI] at hc ⊢; omega
    · exact ⟨⟨0, by ring⟩, by norm_num [anglePI] at hc ⊢; omega, Or.inr ⟨rfl, hc⟩⟩

/-- Behaviour of the budgeted loop `while (delta > PI) delta -= 2*PI`. -/
theorem downGo_spec (n : Nat) : ∀ δ : Int, δ - anglePI ≤ (n : Int) * angle2PI →
    (∃ k : Int, angleDiffDownGo (n+1) δ = δ + k * angle2PI) ∧
    angleDiffDownGo (n+1) δ ≤ anglePI ∧
    (-anglePI < δ → -anglePI < angleDiffDownGo (n+1) δ) := by
  induction n with
  | zero =>
    intro δ h
    simp only [angleDiffDownGo]
    split_ifs with hc
    · refine ⟨⟨-1, by ring⟩, ?_, ?_⟩
      · norm_num [anglePI, angle2PI] at h hc ⊢; omega
      · intro _; norm_num [anglePI, angle2PI] at h hc ⊢; omega
    · exact ⟨⟨0, by ring⟩, by norm_num [anglePI] at hc ⊢; omega, fun hh => hh⟩
  | succ n ih =>
    intro δ h
    rw [show angleDiffDownGo (n+1+1) δ =
      (if δ > anglePI then angleDiffDownGo (n+1) (δ - angle2PI) else δ) from rfl]
    split_ifs with hc
    · have h' : (δ - angle2PI) - anglePI ≤ (n : Int) * angle2PI := by
        push_cast at h ⊢
        norm_num [anglePI, angle2PI] at h hc ⊢
        omega
      obtain ⟨⟨k, hk⟩, hle, hlt⟩ := ih (δ - angle2PI) h'
      refine ⟨⟨k - 1, by rw [hk]; ring⟩, hle, ?_⟩
      intro _
      apply hlt
      norm_num [anglePI, angle2PI] at hc ⊢; omega
    · exact ⟨⟨0, by ring⟩, by norm_num [anglePI] at hc ⊢; omega, fun hh => hh⟩

/-- `angleDiff` lands in `(-PI, PI]` and differs from `a2 - a1` by whole turns. -/
theorem angleDiff_spec (a1 a2 : Int) :
    (-anglePI < angleDiff a1 a2 ∧ angleDiff a1 a2 ≤ anglePI) ∧
    (∃ k : Int, angleDiff a1 a2 = (a2 - a1) + k * angle2PI) := by
  set δ := a2 - a1 with hδ
  have hup : -anglePI - δ ≤ (((anglePI - δ).toNat / angle2PI.toNat : ℕ) : Int) * angle2PI := by
    norm_num [anglePI, angle2PI]
    omega
  obtain ⟨⟨k1, hk1⟩, hlt1, hle1⟩ := upGo_spec _ δ hup
  have hupeq : angleDiffUp δ = angleDiffUpGo ((anglePI - δ).toNat / angle2PI.toNat + 1) δ := rfl
  set r := angleDiffUpGo ((anglePI - δ).toNat / angle2PI.toNat + 1) δ with hr
  have hdn : r - anglePI ≤ (((r + anglePI).toNat / angle2PI.toNat : ℕ) : Int) * angle2PI := by
    norm_num [anglePI, angle2PI]
    omega
  obtain ⟨⟨k2, hk2⟩, hle2, hlt2⟩ := downGo_spec _ r hdn
  have hfinal : angleDiff a1 a2 = angleDiffDownGo ((r + anglePI).toNat / angle2PI.toNat + 1) r := by
    simp only [angleDiff, angleDiffDown, hupeq]
  rw [hfinal]
  exact ⟨⟨hlt2 hlt1, hle2⟩, ⟨k1 + k2, by rw [hk2, hk1]; ring⟩⟩

/-- `angleDiff` computes exactly the mathematical reduction of `a2 - a1`. -/
theorem angleDiff_eq_reduce (a1 a2 : Int) : angleDiff a1 a2 = reduceAngle (a2 - a1) := by
  obtain ⟨⟨hlt, hle⟩, ⟨k, hk⟩⟩ := angleDiff_spec a1 a2
  have h1 : (anglePI - (a2 - a1)) % angle2PI = (anglePI - angleDiff a1 a2) % angle2PI := by
    conv_lhs => rw [show a2 - a1 = angleDiff a1 a2 - k * angle2PI by omega]
    norm_num [angle2PI, anglePI] at *
    omega
  simp only [reduceAngle, h1]
  norm_num [angle2PI, anglePI] at *
  omega

/-- The final angle rounding always produces a multiple of 32. -/
theorem roundTheta_dvd (θ : Int) : (32 : Int) ∣ roundTheta θ := by
  simp only [roundTheta, padRound, padFloor]
  split_ifs <;> omega


/-- Floor-division bracketing for a positive divisor. -/
theorem fdiv_bounds (a b : Int) (hb : 0 < b) :
    b * Int.fdiv a b ≤ a ∧ a < b * Int.fdiv a b + b := by
  rw [Int.fdiv_eq_ediv a (le_of_lt hb)]
  have h1 := Int.emod_add_ediv a b
  have h2 := Int.emod_nonneg a (ne_of_gt hb)
  have h3 := Int.emod_lt_of_pos a hb
  omega

/-- Ceiling-division bracketing for a positive divisor. -/
theorem cdiv_bounds (a b : Int) (hb : 0 < b) :
    a ≤ b * cdiv a b ∧ b * cdiv a b < a + b := by
  have h := fdiv_bounds (-a) b hb
  have e : b * cdiv a b = -(b * Int.fdiv (-a) b) := by rw [cdiv]; ring
  omega

/-- Bracketing of `sar` (arithmetic shift right). -/
theorem sar_bounds (a : Int) (j : Nat) :
    2 ^ j * sar a j ≤ a ∧ a < 2 ^ j * sar a j + 2 ^ j :=
  fdiv_bounds a (2 ^ j) (by positivity)

/-- Writing a positive power of two with its predecessor exponent. -/
theorem two_pow_pred (j : Nat) (h : 1 ≤ j) : (2:Int) ^ j = 2 * 2 ^ (j - 1) := by
  conv_lhs => rw [show j = j - 1 + 1 from by omega]
  rw [pow_succ]; ring

/-- Lower-endpoint transport through a `y > 0` micro-step: the floored image
of the lower ratio endpoint, widened by `2^33`, bounds the new ratio from
below. -/
theorem transport_plus_lo (P b v1 v2 Q x y m : Int)
    (hPb : P = 2 * b) (hb1 : 1 ≤ b)
    (hx : 2 ^ 29 ≤ x) (hy1 : 1 ≤ y)
    (hm : m * x ≤ 2 ^ 60 * y) (hm0 : 0 ≤ m) (hm6 : m ≤ 2 ^ 60)
    (hv1l : P * v1 ≤ y + b) (hv1u : y + b < P * v1 + P)
    (hv2l : P * v2 ≤ x + b) (hv2u : x + b < P * v2 + P)
    (hQ : (2 ^ 60 * P + m) * Q ≤ (m * P - 2 ^ 60) * 2 ^ 60) :
    (Q - 2 ^ 33) * (x + v1) ≤ 2 ^ 60 * (y - v2) := by
  have hPpos : (0:Int) < P := by linarith
  have hDpos : (0:Int) < 2 ^ 60 * P + m := by linarith
  have hda1 : -b ≤ P * v1 - y := by linarith
  have hda2 : P * v1 - y ≤ b := by linarith
  have hdb1 : -b ≤ P * v2 - x := by linarith
  have hdb2 : P * v2 - x ≤ b := by linarith
  have hv1nn : 0 ≤ v1 := by
    by_contra hc
    push_neg at hc
    have h2 : P * v1 ≤ P * (-1) := mul_le_mul_of_nonneg_left (by omega) (le_of_lt hPpos)
    linarith
  have hW1 : -(2 ^ 60 * P) ≤ m * P - 2 ^ 60 := by
    nlinarith [mul_nonneg hm0 (le_of_lt hPpos)]
  have hW2 : m * P - 2 ^ 60 ≤ 2 ^ 60 * P := by
    nlinarith [mul_le_mul_of_nonneg_right hm6 (le_of_lt hPpos)]
  have herrW : (m * P - 2 ^ 60) * (P * v1 - y) ≤ 2 ^ 60 * P * b := by
    nlinarith [mul_nonneg (by linarith : (0:Int) ≤ 2 ^ 60 * P - (m * P - 2 ^ 60))
                 (by linarith : (0:Int) ≤ b + (P * v1 - y)),
               mul_nonneg (by linarith : (0:Int) ≤ 2 ^ 60 * P + (m * P - 2 ^ 60))
                 (by linarith : (0:Int) ≤ b - (P * v1 - y))]
  have herrDB : (P * v2 - x) * (2 ^ 60 * P + m) ≤ b * (2 ^ 60 * P + m) :=
    mul_le_mul_of_nonneg_right hdb2 (le_of_lt hDpos)
  have h3 : 2 ^ 60 * P * b ≤ (2 ^ 60 * P + m) * b := by
    nlinarith [mul_nonneg hm0 (by linarith : (0:Int) ≤ b)]
  have hG : 0 ≤ (P ^ 2 + 1) * (2 ^ 60 * y - m * x) :=
    mul_nonneg (by positivity) (by linarith)
  have hprod : 0 ≤ (2 ^ 34 * (x + v1) - 2 ^ 61) * (b * (2 ^ 60 * P + m)) :=
    mul_nonneg (by linarith) (mul_nonneg (by linarith) (le_of_lt hDpos))
  have hPx : 0 ≤ P * (x + v1) := mul_nonneg (le_of_lt hPpos) (by linarith)
  have hQx : (2 ^ 60 * P + m) * Q * (P * (x + v1))
      ≤ (m * P - 2 ^ 60) * 2 ^ 60 * (P * (x + v1)) :=
    mul_le_mul_of_nonneg_right hQ hPx
  have key : 2 ^ 60 * (y - v2) * ((2 ^ 60 * P + m) * P)
        - (m * P - 2 ^ 60) * 2 ^ 60 * (P * (x + v1)) =
      2 ^ 60 * ((P ^ 2 + 1) * (2 ^ 60 * y - m * x)
        - (P * v2 - x) * (2 ^ 60 * P + m) - (m * P - 2 ^ 60) * (P * v1 - y)) := by
    ring
  have hE : 2 ^ 33 * (x + v1) * ((2 ^ 60 * P + m) * P)
      = 2 ^ 34 * (x + v1) * (b * (2 ^ 60 * P + m)) := by rw [hPb]; ring
  have hPD : (0:Int) < (2 ^ 60 * P + m) * P := mul_pos hDpos hPpos
  have main : (Q - 2 ^ 33) * (x + v1) * ((2 ^ 60 * P + m) * P)
      ≤ 2 ^ 60 * (y - v2) * ((2 ^ 60 * P + m) * P) := by
    nlinarith [key, hQx, herrDB, herrW, h3, hprod, hG, hE]
  exact le_of_mul_le_mul_right main hPD

/-- Upper-endpoint transport through a `y > 0` micro-step. -/
theorem transport_plus_hi (P b v1 v2 Q x y m : Int)
    (hPb : P = 2 * b) (hb1 : 1 ≤ b)
    (hx : 2 ^ 29 ≤ x) (hy1 : 1 ≤ y)
    (hm : 2 ^ 60 * y ≤ m * x) (hm0 : 0 ≤ m) (hm6 : m ≤ 2 ^ 60)
    (hv1l : P * v1 ≤ y + b) (hv1u : y + b < P * v1 + P)
    (hv2l : P * v2 ≤ x + b) (hv2u : x + b < P * v2 + P)
    (hQ : (m * P - 2 ^ 60) * 2 ^ 60 ≤ (2 ^ 60 * P + m) * Q) :
    2 ^ 60 * (y - v2) ≤ (Q + 2 ^ 33) * (x + v1) := by
  have hPpos : (0:Int) < P := by linarith
  have hDpos : (0:Int) < 2 ^ 60 * P + m := by linarith
  have hda1 : -b ≤ P * v1 - y := by linarith
  have hda2 : P * v1 - y ≤ b := by linarith
  have hdb1 : -b ≤ P * v2 - x := by linarith
  have hdb2 : P * v2 - x ≤ b := by linarith
  have hv1nn : 0 ≤ v1 := by
    by_contra hc
    push_neg at hc
    have h2 : P * v1 ≤ P * (-1) := mul_le_mul_of_nonneg_left (by omega) (le_of_lt hPpos)
    linarith
  have hW1 : -(2 ^ 60 * P) ≤ m * P - 2 ^ 60 := by
    nlinarith [mul_nonneg hm0 (le_of_lt hPpos)]
  have hW2 : m * P - 2 ^ 60 ≤ 2 ^ 60 * P := by
    nlinarith [mul_le_mul_of_nonneg_right hm6 (le_of_lt hPpos)]
  have herrW : -(2 ^ 60 * P * b) ≤ (m * P - 2 ^ 60) * (P * v1 - y) := by
    nlinarith [mul_nonneg (by linarith : (0:Int) ≤ 2 ^ 60 * P - (m * P - 2 ^ 60))
                 (by linarith : (0:Int) ≤ b - (P * v1 - y)),
               mul_nonneg (by linarith : (0:Int) ≤ 2 ^ 60 * P + (m * P - 2 ^ 60))
                 (by linarith : (0:Int) ≤ b + (P * v1 - y))]
  have herrDB : -b * (2 ^ 60 * P + m) ≤ (P * v2 - x) * (2 ^ 60 * P + m) :=
    mul_le_mul_of_nonneg_right hdb1 (le_of_lt hDpos)
  have h3 : 2 ^ 60 * P * b ≤ (2 ^ 60 * P + m) * b := by
    nlinarith [mul_nonneg hm0 (by linarith : (0:Int) ≤ b)]
  have hG : (P ^ 2 + 1) * (2 ^ 60 * y - m * x) ≤ 0 := by
    nlinarith [mul_le_mul_of_nonneg_left (show 2 ^ 60 * y - m * x ≤ 0 by linarith)
      (show (0:Int) ≤ P ^ 2 + 1 by positivity)]
  have hprod : 0 ≤ (2 ^ 34 * (x + v1) - 2 ^ 61) * (b * (2 ^ 60 * P + m)) :=
    mul_nonneg (by linarith) (mul_nonneg (by linarith) (le_of_lt hDpos))
  have hPx : 0 ≤ P * (x + v1) := mul_nonneg (le_of_lt hPpos) (by linarith)
  have hQx : (m * P - 2 ^ 60) * 2 ^ 60 * (P * (x + v1))
      ≤ (2 ^ 60 * P + m) * Q * (P * (x + v1)) :=
    mul_le_mul_of_nonneg_right hQ hPx
  have key : 2 ^ 60 * (y - v2) * ((2 ^ 60 * P + m) * P)
        - (m * P - 2 ^ 60) * 2 ^ 60 * (P * (x + v1)) =
      2 ^ 60 * ((P ^ 2 + 1) * (2 ^ 60 * y - m * x)
        - (P * v2 - x) * (2 ^ 60 * P + m) - (m * P - 2 ^ 60) * (P * v1 - y)) := by
    ring
  have hE : 2 ^ 33 * (x + v1) * ((2 ^ 60 * P + m) * P)
      = 2 ^ 34 * (x + v1) * (b * (2 ^ 60 * P + m)) := by rw [hPb]; ring
  have hPD : (0:Int) < (2 ^ 60 * P + m) * P := mul_pos hDpos hPpos
  have main : 2 ^ 60 * (y - v2) * ((2 ^ 60 * P + m) * P)
      ≤ (Q + 2 ^ 33) * (x + v1) * ((2 ^ 60 * P + m) * P) := by
    nlinarith [key, hQx, herrDB, herrW, h3, hprod, hG, hE]
  exact le_of_mul_le_mul_right main hPD

/-- Lower-endpoint transport through a `y ≤ 0` micro-step. -/
theorem transport_minus_lo (P b v1 v2 Q x y m : Int)
    (hPb : P = 2 * b) (hb1 : 1 ≤ b)
    (hx : 2 ^ 29 ≤ x) (hy0 : y ≤ 0)
    (hm : m * x ≤ 2 ^ 60 * y) (hm0 : m ≤ 0) (hm6 : -(2 ^ 60) ≤ m)
    (hv1l : P * v1 ≤ y + b) (hv1u : y + b < P * v1 + P)
    (hv2l : P * v2 ≤ x + b) (hv2u : x + b < P * v2 + P)
    (hQ : (2 ^ 60 * P - m) * Q ≤ (m * P + 2 ^ 60) * 2 ^ 60) :
    (Q - 2 ^ 33) * (x - v1) ≤ 2 ^ 60 * (y + v2) := by
  have hPpos : (0:Int) < P := by linarith
  have hDpos : (0:Int) < 2 ^ 60 * P - m := by linarith
  have hda1 : -b ≤ P * v1 - y := by linarith
  have hda2 : P * v1 - y ≤ b := by linarith
  have hdb1 : -b ≤ P * v2 - x := by linarith
  have hdb2 : P * v2 - x ≤ b := by linarith
  have hv1np : v1 ≤ 0 := by
    by_contra hc
    push_neg at hc
    have h2 : P * 1 ≤ P * v1 := mul_le_mul_of_nonneg_left (by omega) (le_of_lt hPpos)
    linarith
  have hW1 : -(2 ^ 60 * P) ≤ m * P + 2 ^ 60 := by
    nlinarith [mul_le_mul_of_nonneg_right hm6 (le_of_lt hPpos)]
  have hW2 : m * P + 2 ^ 60 ≤ 2 ^ 60 * P := by
    nlinarith [mul_le_mul_of_nonneg_right hm0 (le_of_lt hPpos)]
  have herrW : -(2 ^ 60 * P * b) ≤ (m * P + 2 ^ 60) * (P * v1 - y) := by
    nlinarith [mul_nonneg (by linarith : (0:Int) ≤ 2 ^ 60 * P - (m * P + 2 ^ 60))
                 (by linarith : (0:Int) ≤ b - (P * v1 - y)),
               mul_nonneg (by linarith : (0:Int) ≤ 2 ^ 60 * P + (m * P + 2 ^ 60))
                 (by linarith : (0:Int) ≤ b + (P * v1 - y))]
  have herrDB : -b * (2 ^ 60 * P - m) ≤ (P * v2 - x) * (2 ^ 60 * P - m) :=
    mul_le_mul_of_nonneg_right hdb1 (le_of_lt hDpos)
  have h3 : 2 ^ 60 * P * b ≤ (2 ^ 60 * P - m) * b := by
    nlinarith [mul_le_mul_of_nonneg_right hm0 (by linarith : (0:Int) ≤ b)]
  have hG : 0 ≤ (P ^ 2 + 1) * (2 ^ 60 * y - m * x) :=
    mul_nonneg (by positivity) (by linarith)
  have hprod : 0 ≤ (2 ^ 34 * (x - v1) - 2 ^ 61) * (b * (2 ^ 60 * P - m)) :=
    mul_nonneg (by linarith) (mul_nonneg (by linarith) (le_of_lt hDpos))
  have hPx : 0 ≤ P * (x - v1) := mul_nonneg (le_of_lt hPpos) (by linarith)
  have hQx : (2 ^ 60 * P - m) * Q * (P * (x - v1))
      ≤ (m * P + 2 ^ 60) * 2 ^ 60 * (P * (x - v1)) :=
    mul_le_mul_of_nonneg_right hQ hPx
  have key : 2 ^ 60 * (y + v2) * ((2 ^ 60 * P - m) * P)
        - (m * P + 2 ^ 60) * 2 ^ 60 * (P * (x - v1)) =
      2 ^ 60 * ((P ^ 2 + 1) * (2 ^ 60 * y - m * x)
        + (P * v2 - x) * (2 ^ 60 * P - m) + (m * P + 2 ^ 60) * (P * v1 - y)) := by
    ring
  have hE : 2 ^ 33 * (x - v1) * ((2 ^ 60 * P - m) * P)
      = 2 ^ 34 * (x - v1) * (b * (2 ^ 60 * P - m)) := by rw [hPb]; ring
  have hPD : (0:Int) < (2 ^ 60 * P - m) * P := mul_pos hDpos hPpos
  have main : (Q - 2 ^ 33) * (x - v1) * ((2 ^ 60 * P - m) * P)
      ≤ 2 ^ 60 * (y + v2) * ((2 ^ 60 * P - m) * P) := by
    nlinarith [key, hQx, herrDB, herrW, h3, hprod, hG, hE]
  exact le_of_mul_le_mul_right main hPD

/-- Upper-endpoint transport through a `y ≤ 0` micro-step. -/
theorem transport_minus_hi (P b v1 v2 Q x y m : Int)
    (hPb : P = 2 * b) (hb1 : 1 ≤ b)
    (hx : 2 ^ 29 ≤ x) (hy0 : y ≤ 0)
    (hm : 2 ^ 60 * y ≤ m * x) (hm0 : m ≤ 0) (hm6 : -(2 ^ 60) ≤ m)
    (hv1l : P * v1 ≤ y + b) (hv1u : y + b < P * v1 + P)
    (hv2l : P * v2 ≤ x + b) (hv2u : x + b < P * v2 + P)
    (hQ : (m * P + 2 ^ 60) * 2 ^ 60 ≤ (2 ^ 60 * P - m) * Q) :
    2 ^ 60 * (y + v2) ≤ (Q + 2 ^ 33) * (x - v1) := by
  have hPpos : (0:Int) < P := by linarith
  have hDpos : (0:Int) < 2 ^ 60 * P - m := by linarith
  have hda1 : -b ≤ P * v1 - y := by linarith
  have hda2 : P * v1 - y ≤ b := by linarith
  have hdb1 : -b ≤ P * v2 - x := by linarith
  have hdb2 : P * v2 - x ≤ b := by linarith
  have hv1np : v1 ≤ 0 := by
    by_contra hc
    push_neg at hc
    have h2 : P * 1 ≤ P * v1 := mul_le_mul_of_nonneg_left (by omega) (le_of_lt hPpos)
    linarith
  have hW1 : -(2 ^ 60 * P) ≤ m * P + 2 ^ 60 := by
    nlinarith [mul_le_mul_of_nonneg_right hm6 (le_of_lt hPpos)]
  have hW2 : m * P + 2 ^ 60 ≤ 2 ^ 60 * P := by
    nlinarith [mul_le_mul_of_nonneg_right hm0 (le_of_lt hPpos)]
  have herrW : (m * P + 2 ^ 60) * (P * v1 - y) ≤ 2 ^ 60 * P * b := by
    nlinarith [mul_nonneg (by linarith : (0:Int) ≤ 2 ^ 60 * P - (m * P + 2 ^ 60))
                 (by linarith : (0:Int) ≤ b + (P * v1 - y)),
               mul_nonneg (by linarith : (0:Int) ≤ 2 ^ 60 * P + (m * P + 2 ^ 60))
                 (by linarith : (0:Int) ≤ b - (P * v1 - y))]
  have herrDB : (P * v2 - x) * (2 ^ 60 * P - m) ≤ b * (2 ^ 60 * P - m) :=
    mul_le_mul_of_nonneg_right hdb2 (le_of_lt hDpos)
  have h3 : 2 ^ 60 * P * b ≤ (2 ^ 60 * P - m) * b := by
    nlinarith [mul_le_mul_of_nonneg_right hm0 (by linarith : (0:Int) ≤ b)]
  have hG : (P ^ 2 + 1) * (2 ^ 60 * y - m * x) ≤ 0 := by
    nlinarith [mul_le_mul_of_nonneg_left (show 2 ^ 60 * y - m * x ≤ 0 by linarith)
      (show (0:Int) ≤ P ^ 2 + 1 by positivity)]
  have hprod : 0 ≤ (2 ^ 34 * (x - v1) - 2 ^ 61) * (b * (2 ^ 60 * P - m)) :=
    mul_nonneg (by linarith) (mul_nonneg (by linarith) (le_of_lt hDpos))
  have hPx : 0 ≤ P * (x - v1) := mul_nonneg (le_of_lt hPpos) (by linarith)
  have hQx : (m * P + 2 ^ 60) * 2 ^ 60 * (P * (x - v1))
      ≤ (2 ^ 60 * P - m) * Q * (P * (x - v1)) :=
    mul_le_mul_of_nonneg_right hQ hPx
  have key : 2 ^ 60 * (y + v2) * ((2 ^ 60 * P - m) * P)
        - (m * P + 2 ^ 60) * 2 ^ 60 * (P * (x - v1)) =
      2 ^ 60 * ((P ^ 2 + 1) * (2 ^ 60 * y - m * x)
        + (P * v2 - x) * (2 ^ 60 * P - m) + (m * P + 2 ^ 60) * (P * v1 - y)) := by
    ring
  have hE : 2 ^ 33 * (x - v1) * ((2 ^ 60 * P - m) * P)
      = 2 ^ 34 * (x - v1) * (b * (2 ^ 60 * P - m)) := by rw [hPb]; ring
  have hPD : (0:Int) < (2 ^ 60 * P - m) * P := mul_pos hDpos hPpos
  have main : 2 ^ 60 * (y + v2) * ((2 ^ 60 * P - m) * P)
      ≤ (Q + 2 ^ 33) * (x - v1) * ((2 ^ 60 * P - m) * P) := by
    nlinarith [key, hQx, herrDB, herrW, h3, hprod, hG, hE]
  exact le_of_mul_le_mul_right main hPD

/-- State invariant preservation through a `y > 0` micro-step. -/
theorem step_plus_pres (P b v1 v2 x y : Int)
    (hPb : P = 2 * b) (hb1 : 1 ≤ b) (hb21 : b ≤ 2 ^ 21)
    (hx : 2 ^ 29 ≤ x) (hy1 : 1 ≤ y) (hyx : y ≤ x)
    (hv1l : P * v1 ≤ y + b) (hv1u : y + b < P * v1 + P)
    (hv2l : P * v2 ≤ x + b) (hv2u : x + b < P * v2 + P) :
    2 ^ 29 ≤ x + v1 ∧ -(x + v1) ≤ y - v2 ∧ y - v2 ≤ x + v1 := by
  have hPpos : (0:Int) < P := by linarith
  have hv1nn : 0 ≤ v1 := by
    by_contra hc
    push_neg at hc
    have h2 : P * v1 ≤ P * (-1) := mul_le_mul_of_nonneg_left (by omega) (le_of_lt hPpos)
    linarith
  have hv2nn : 0 ≤ v2 := by
    by_contra hc
    push_neg at hc
    have h2 : P * v2 ≤ P * (-1) := mul_le_mul_of_nonneg_left (by omega) (le_of_lt hPpos)
    linarith
  have hv2x : v2 ≤ x := by
    by_contra hc
    push_neg at hc
    have h2 : P * (x + 1) ≤ P * v2 := mul_le_mul_of_nonneg_left (by omega) (le_of_lt hPpos)
    nlinarith [mul_nonneg (by linarith : (0:Int) ≤ P - 2) (by linarith : (0:Int) ≤ x + 1)]
  exact ⟨by linarith, by linarith, by linarith⟩

/-- State invariant preservation through a `y ≤ 0` micro-step. -/
theorem step_minus_pres (P b v1 v2 x y : Int)
    (hPb : P = 2 * b) (hb1 : 1 ≤ b) (hb21 : b ≤ 2 ^ 21)
    (hx : 2 ^ 29 ≤ x) (hy0 : y ≤ 0) (hyx : -x ≤ y)
    (hv1l : P * v1 ≤ y + b) (hv1u : y + b < P * v1 + P)
    (hv2l : P * v2 ≤ x + b) (hv2u : x + b < P * v2 + P) :
    2 ^ 29 ≤ x - v1 ∧ -(x - v1) ≤ y + v2 ∧ y + v2 ≤ x - v1 := by
  have hPpos : (0:Int) < P := by linarith
  have hv1np : v1 ≤ 0 := by
    by_contra hc
    push_neg at hc
    have h2 : P * 1 ≤ P * v1 := mul_le_mul_of_nonneg_left (by omega) (le_of_lt hPpos)
    linarith
  have hv2nn : 0 ≤ v2 := by
    by_contra hc
    push_neg at hc
    have h2 : P * v2 ≤ P * (-1) := mul_le_mul_of_nonneg_left (by omega) (le_of_lt hPpos)
    linarith
  have hv2x : v2 ≤ x := by
    by_contra hc
    push_neg at hc
    have h2 : P * (x + 1) ≤ P * v2 := mul_le_mul_of_nonneg_left (by omega) (le_of_lt hPpos)
    nlinarith [mul_nonneg (by linarith : (0:Int) ≤ P - 2) (by linarith : (0:Int) ≤ x + 1)]
  exact ⟨by linarith, by linarith, by linarith⟩

/-- Every arctan-table entry (and the out-of-range default) is nonnegative. -/
theorem tbl_nonneg (i : Nat) : 0 ≤ tbl i := by
  have hlen : arctanTable.length = 22 := by rfl
  rcases lt_or_ge (i - 1) 22 with h | h
  · have hall : ∀ k, k < 22 → 0 ≤ arctanTable.getD k 0 := by decide
    exact hall _ h
  · rw [tbl, List.getD_eq_default _ _ (by omega : arctanTable.length ≤ i - 1)]

/-- The angle accumulated by the remaining micro-steps moves by at most the
sum of the remaining table entries. -/
theorem polIterGo_theta (n : Nat) : ∀ (j : Nat) (x y θ : Int),
    θ - restGo n j ≤ (polIterGo n j x y θ).2.2 ∧
      (polIterGo n j x y θ).2.2 ≤ θ + restGo n j := by
  induction n with
  | zero =>
    intro j x y θ
    simp [polIterGo, restGo]
  | succ n ih =>
    intro j x y θ
    have ht := tbl_nonneg j
    simp only [polIterGo, restGo]
    split_ifs with hy
    · have h := ih (j + 1) (x + sar (y + 2 ^ (j - 1)) j) (y - sar (x + 2 ^ (j - 1)) j)
        (θ + tbl j)
      exact ⟨by linarith [h.1], by linarith [h.2]⟩
    · have h := ih (j + 1) (x - sar (y + 2 ^ (j - 1)) j) (y + sar (x + 2 ^ (j - 1)) j)
        (θ - tbl j)
      exact ⟨by linarith [h.1], by linarith [h.2]⟩

/-- The rounded final angle stays inside `[-PI, PI]` when the raw angle does
(`PI` is a multiple of the rounding grain 32). -/
theorem roundTheta_range (θ : Int) (h1 : -anglePI ≤ θ) (h2 : θ ≤ anglePI) :
    -anglePI ≤ roundTheta θ ∧ roundTheta θ ≤ anglePI := by
  simp only [roundTheta, padRound, padFloor, anglePI] at *
  norm_num at *
  split_ifs <;> omega

set_option maxHeartbeats 2000000 in
/-- Soundness of the interval checker: if `exploreAtan` accepts an interval
node, every concrete CORDIC state covered by the node ends with a rounded
angle in `[-PI, PI]`. -/
theorem exploreAtan_sound (fuel : Nat) :
    ∀ (j : Nat) (mlo0 mhi0 θ x y : Int),
      exploreAtan fuel j mlo0 mhi0 θ = true →
      1 ≤ j →
      2 ^ 29 ≤ x → -x ≤ y → y ≤ x →
      mlo0 * x ≤ 2 ^ 60 * y → 2 ^ 60 * y ≤ mhi0 * x →
      -anglePI ≤ roundTheta (polIterGo (23 - j) j x y θ).2.2 ∧
        roundTheta (polIterGo (23 - j) j x y θ).2.2 ≤ anglePI := by
  induction fuel with
  | zero =>
    intro j mlo0 mhi0 θ x y hE
    simp [exploreAtan] at hE
  | succ fuel ih =>
    intro j mlo0 mhi0 θ x y hE hj1 hx hylo hyhi hmlo0 hmhi0
    have hxpos : (0:Int) < x := by linarith
    simp only [exploreAtan] at hE
    set A := max mlo0 (-(2 ^ 60)) with hA
    set B := min mhi0 (2 ^ 60) with hB
    have hmloA : A * x ≤ 2 ^ 60 * y := by
      rcases max_choice mlo0 (-(2 ^ 60)) with h | h <;> rw [hA, h]
      · exact hmlo0
      · nlinarith
    have hmhiB : 2 ^ 60 * y ≤ B * x := by
      rcases min_choice mhi0 (2 ^ 60) with h | h <;> rw [hB, h]
      · exact hmhi0
      · nlinarith
    have hA6 : -(2 ^ 60) ≤ A := le_max_right _ _
    have hB6 : B ≤ 2 ^ 60 := min_le_right _ _
    by_cases h1 : B < A
    · exact absurd (lt_of_le_of_lt (le_trans hmloA hmhiB)
        (mul_lt_mul_of_pos_right h1 hxpos)) (lt_irrefl _)
    rw [if_neg h1] at hE
    by_cases h2 : 23 ≤ j
    · rw [if_pos h2, decide_eq_true_eq] at hE
      rw [show 23 - j = 0 from by omega]
      exact hE
    rw [if_neg h2] at hE
    have hj22 : j ≤ 22 := by omega
    by_cases h3 : θ + restSum j ≤ anglePI ∧ -anglePI ≤ θ - restSum j
    · have ht := polIterGo_theta (23 - j) j x y θ
      rw [restSum] at h3
      exact roundTheta_range _ (by linarith [ht.1, h3.2]) (by linarith [ht.2, h3.1])
    rw [if_neg h3] at hE
    by_cases h4 : A < 0 ∧ 0 < B ∧ 2 ^ 33 < B - A
    · rw [if_pos h4, Bool.and_eq_true] at hE
      rcases le_total (2 ^ 60 * y) ((A + B) / 2 * x) with hc | hc
      · exact ih j A ((A + B) / 2) θ x y hE.1 hj1 hx hylo hyhi hmloA hc
      · exact ih j ((A + B) / 2) B θ x y hE.2 hj1 hx hylo hyhi hc hmhiB
    rw [if_neg h4, Bool.and_eq_true] at hE
    obtain ⟨hEp, hEm⟩ := hE
    have hb1 : (1:Int) ≤ 2 ^ (j - 1) := by
      have := pow_pos (show (0:Int) < 2 by norm_num) (j - 1)
      omega
    have hb21 : (2:Int) ^ (j - 1) ≤ 2 ^ 21 :=
      pow_le_pow_right₀ (by norm_num) (by omega)
    have hPb := two_pow_pred j hj1
    have hv1 := sar_bounds (y + 2 ^ (j - 1)) j
    have hv2 := sar_bounds (x + 2 ^ (j - 1)) j
    have hn : 23 - j = 23 - (j + 1) + 1 := by omega
    have hPpow : (0:Int) < 2 ^ j := by positivity
    rcases lt_or_ge 0 y with hy | hy
    · -- y > 0 : the loop takes the `theta += table entry` branch
      have hy1 : (1:Int) ≤ y := hy
      have hBpos : 0 < B := by
        by_contra hc
        push_neg at hc
        nlinarith [mul_le_mul_of_nonneg_right hc (le_of_lt hxpos)]
      rw [if_pos hBpos] at hEp
      set m0 := max A 0 with hm0d
      have hm00 : (0:Int) ≤ m0 := le_max_right _ _
      have hm0le : m0 * x ≤ 2 ^ 60 * y := by
        rcases max_choice A 0 with h | h <;> rw [hm0d, h]
        · exact hmloA
        · nlinarith
      have hm06 : m0 ≤ 2 ^ 60 := by
        have hAB : A ≤ B := not_lt.mp h1
        rcases max_choice A 0 with h | h <;> rw [hm0d, h] <;> [linarith; norm_num]
      have hD1 : (0:Int) < 2 ^ 60 * 2 ^ j + m0 := by nlinarith
      have hD2 : (0:Int) < 2 ^ 60 * 2 ^ j + B := by nlinarith
      have hQlo := fdiv_bounds ((m0 * 2 ^ j - 2 ^ 60) * 2 ^ 60) (2 ^ 60 * 2 ^ j + m0) hD1
      have hQhi := cdiv_bounds ((B * 2 ^ j - 2 ^ 60) * 2 ^ 60) (2 ^ 60 * 2 ^ j + B) hD2
      have hlo := transport_plus_lo (2 ^ j) (2 ^ (j - 1))
        (sar (y + 2 ^ (j - 1)) j) (sar (x + 2 ^ (j - 1)) j)
        (Int.fdiv ((m0 * 2 ^ j - 2 ^ 60) * 2 ^ 60) (2 ^ 60 * 2 ^ j + m0)) x y m0
        hPb hb1 hx hy1 hm0le hm00 hm06 hv1.1 hv1.2 hv2.1 hv2.2 hQlo.1
      have hhi := transport_plus_hi (2 ^ j) (2 ^ (j - 1))
        (sar (y + 2 ^ (j - 1)) j) (sar (x + 2 ^ (j - 1)) j)
        (cdiv ((B * 2 ^ j - 2 ^ 60) * 2 ^ 60) (2 ^ 60 * 2 ^ j + B)) x y B
        hPb hb1 hx hy1 hmhiB (le_of_lt hBpos) hB6 hv1.1 hv1.2 hv2.1 hv2.2 hQhi.1
      have hpres := step_plus_pres (2 ^ j) (2 ^ (j - 1))
        (sar (y + 2 ^ (j - 1)) j) (sar (x + 2 ^ (j - 1)) j) x y
        hPb hb1 hb21 hx hy1 hyhi hv1.1 hv1.2 hv2.1 hv2.2
      have hres := ih (j + 1) _ _ (θ + tbl j)
        (x + sar (y + 2 ^ (j - 1)) j) (y - sar (x + 2 ^ (j - 1)) j)
        hEp (by omega) hpres.1 hpres.2.1 hpres.2.2 hlo hhi
      rw [hn]
      simp only [polIterGo]
      rw [if_pos hy]
      exact hres
    · -- y ≤ 0 : the loop takes the `theta -= table entry` branch
      have hy0 : y ≤ 0 := hy
      have hAle : A ≤ 0 := by
        by_contra hc
        push_neg at hc
        nlinarith [mul_le_mul_of_nonneg_right (show (1:Int) ≤ A by omega) (le_of_lt hxpos)]
      rw [if_pos hAle] at hEm
      set m1 := min B 0 with hm1d
      have hm10 : m1 ≤ 0 := min_le_right _ _
      have hm1ge : 2 ^ 60 * y ≤ m1 * x := by
        rcases min_choice B 0 with h | h <;> rw [hm1d, h]
        · exact hmhiB
        · nlinarith
      have hm16 : -(2 ^ 60) ≤ m1 := by
        have hAB : A ≤ B := not_lt.mp h1
        rcases min_choice B 0 with h | h <;> rw [hm1d, h] <;> [linarith; norm_num]
      have hD1 : (0:Int) < 2 ^ 60 * 2 ^ j - A := by nlinarith
      have hD2 : (0:Int) < 2 ^ 60 * 2 ^ j - m1 := by nlinarith
      have hQlo := fdiv_bounds ((A * 2 ^ j + 2 ^ 60) * 2 ^ 60) (2 ^ 60 * 2 ^ j - A) hD1
      have hQhi := cdiv_bounds ((m1 * 2 ^ j + 2 ^ 60) * 2 ^ 60) (2 ^ 60 * 2 ^ j - m1) hD2
      have hlo := transport_minus_lo (2 ^ j) (2 ^ (j - 1))
        (sar (y + 2 ^ (j - 1)) j) (sar (x + 2 ^ (j - 1)) j)
        (Int.fdiv ((A * 2 ^ j + 2 ^ 60) * 2 ^ 60) (2 ^ 60 * 2 ^ j - A)) x y A
        hPb hb1 hx hy0 hmloA hAle hA6 hv1.1 hv1.2 hv2.1 hv2.2 hQlo.1
      have hhi := transport_minus_hi (2 ^ j) (2 ^ (j - 1))
        (sar (y + 2 ^ (j - 1)) j) (sar (x + 2 ^ (j - 1)) j)
        (cdiv ((m1 * 2 ^ j + 2 ^ 60) * 2 ^ 60) (2 ^ 60 * 2 ^ j - m1)) x y m1
        hPb hb1 hx hy0 hm1ge hm10 hm16 hv1.1 hv1.2 hv2.1 hv2.2 hQhi.1
      have hpres := step_minus_pres (2 ^ j) (2 ^ (j - 1))
        (sar (y + 2 ^ (j - 1)) j) (sar (x + 2 ^ (j - 1)) j) x y
        hPb hb1 hb21 hx hy0 hylo hv1.1 hv1.2 hv2.1 hv2.2
      have hres := ih (j + 1) _ _ (θ - tbl j)
        (x - sar (y + 2 ^ (j - 1)) j) (y + sar (x + 2 ^ (j - 1)) j)
        hEm (by omega) hpres.1 hpres.2.1 hpres.2.2 hlo hhi
      rw [hn]
      simp only [polIterGo]
      rw [if_neg (not_lt.mpr hy0)]
      exact hres

set_option maxRecDepth 4000 in
/-- Checker run covering the `theta = +PI` octant (start ratio interval
`[-2^60, 0]`). -/
theorem exploreRun_pi : exploreAtan 60 1 (-(2 ^ 60)) 0 anglePI = true := by decide

set_option maxRecDepth 4000 in
/-- Checker run covering the `theta = -PI` octant (start ratio interval
`[0, 2^60]`). -/
theorem exploreRun_mpi : exploreAtan 60 1 0 (2 ^ 60) (-anglePI) = true := by decide

/-- Checker run covering the `theta = 0` octant. -/
theorem exploreRun_zero : exploreAtan 60 1 (-(2 ^ 60)) (2 ^ 60) 0 = true := by decide

/-- Checker run covering the `theta = +PI/2` octant. -/
theorem exploreRun_pi2 : exploreAtan 60 1 (-(2 ^ 60)) (2 ^ 60) anglePI2 = true := by decide

/-- Checker run covering the `theta = -PI/2` octant. -/
theorem exploreRun_mpi2 : exploreAtan 60 1 (-(2 ^ 60)) (2 ^ 60) (-anglePI2) = true := by
  decide

/-- Specification of the budgeted MSB loop: with a sufficient budget it
returns the index of the most significant bit. -/
theorem msbGo_spec : ∀ (f n : Nat), 1 ≤ n → n < 2 ^ f →
    2 ^ msbGo f n ≤ n ∧ n < 2 ^ (msbGo f n + 1) := by
  intro f
  induction f with
  | zero => intro n h1 h2; omega
  | succ f ih =>
    intro n h1 h2
    rw [msbGo]
    split_ifs with hn
    · have hhalf := ih (n / 2) (by omega) (by
        have e : 2 ^ (f + 1) = 2 * 2 ^ f := by rw [pow_succ]; ring
        omega)
      have e1 : 2 ^ (msbGo f (n / 2) + 1) = 2 * 2 ^ msbGo f (n / 2) := by
        rw [pow_succ]; ring
      have e2 : 2 ^ (msbGo f (n / 2) + 1 + 1) = 2 * 2 ^ (msbGo f (n / 2) + 1) := by
        rw [pow_succ]; ring
      omega
    · simp only [pow_succ, pow_zero]
      omega

/-- A zero bitwise-or forces both operands to zero. -/
theorem lor_bits_zero (a b : Nat) (h : a ||| b = 0) : a = 0 ∧ b = 0 := by
  have hb : ∀ i, a.testBit i = false ∧ b.testBit i = false := by
    intro i
    have hbit := congrArg (fun t => Nat.testBit t i) h
    simpa [Nat.testBit_or] using hbit
  constructor <;> apply Nat.eq_of_testBit_eq <;> intro i <;>
    simp [Nat.zero_testBit, (hb i).1, (hb i).2]

/-- A high bit of a bitwise-or comes from one of the operands. -/
theorem lor_high_bit (a b s : Nat) (h : 2 ^ s ≤ a ||| b) : 2 ^ s ≤ a ∨ 2 ^ s ≤ b := by
  by_contra hc
  push_neg at hc
  exact absurd (Nat.or_lt_two_pow hc.1 hc.2) (not_lt.mpr h)

/-- An arithmetic right shift keeps a large magnitude large. -/
theorem sar_mag (a : Int) (k e : Nat) (h : 2 ^ (e + k) ≤ a.natAbs) :
    2 ^ e ≤ (sar a k).natAbs := by
  have hb := sar_bounds a k
  have hp : (2:Int) ^ (e + k) = 2 ^ e * 2 ^ k := pow_add 2 e k
  have hcast : ((2 ^ (e + k) : Nat) : Int) = (2:Int) ^ (e + k) := by push_cast; ring
  have hcaste : ((2 ^ e : Nat) : Int) = (2:Int) ^ e := by push_cast; ring
  rcases le_or_lt 0 a with ha | ha
  · have haI : (2:Int) ^ (e + k) ≤ a := by omega
    have hq : (2:Int) ^ e ≤ sar a k := by
      by_contra hc
      push_neg at hc
      have h2 : 2 ^ k * sar a k ≤ 2 ^ k * (2 ^ e - 1) :=
        mul_le_mul_of_nonneg_left (by omega) (by positivity)
      nlinarith
    omega
  · have haI : a ≤ -(2:Int) ^ (e + k) := by omega
    have hq : sar a k ≤ -(2:Int) ^ e := by
      by_contra hc
      push_neg at hc
      have h2 : 2 ^ k * (-(2 ^ e) + 1) ≤ 2 ^ k * sar a k :=
        mul_le_mul_of_nonneg_left (by omega) (by positivity)
      nlinarith
    omega

/-- After `ft_trig_prenorm` of a non-zero vector, one coordinate has
magnitude at least `2^29`. -/
theorem prenorm_mag (v : Vec) (hv : ¬(v.x = 0 ∧ v.y = 0)) :
    2 ^ 29 ≤ (prenorm v).1.x.natAbs ∨ 2 ^ 29 ≤ (prenorm v).1.y.natAbs := by
  have hn1 : 1 ≤ v.x.natAbs ||| v.y.natAbs := by
    rcases Nat.eq_zero_or_pos (v.x.natAbs ||| v.y.natAbs) with h | h
    · obtain ⟨h1, h2⟩ := lor_bits_zero _ _ h
      exact absurd ⟨Int.natAbs_eq_zero.mp h1, Int.natAbs_eq_zero.mp h2⟩ hv
    · exact h
  have hspec : 2 ^ msb (v.x.natAbs ||| v.y.natAbs) ≤ v.x.natAbs ||| v.y.natAbs :=
    (msbGo_spec _ _ hn1 (Nat.lt_two_pow _)).1
  have hor := lor_high_bit _ _ _ hspec
  simp only [prenorm]
  split_ifs with hs
  · rcases hor with h | h
    · left
      rw [Int.natAbs_mul]
      have he : ((2:Int) ^ (29 - msb (v.x.natAbs ||| v.y.natAbs))).natAbs
          = 2 ^ (29 - msb (v.x.natAbs ||| v.y.natAbs)) := by
        rw [Int.natAbs_pow]; rfl
      rw [he]
      calc 2 ^ 29 = 2 ^ msb (v.x.natAbs ||| v.y.natAbs)
            * 2 ^ (29 - msb (v.x.natAbs ||| v.y.natAbs)) := by
            rw [← pow_add]; congr 1; omega
      _ ≤ v.x.natAbs * 2 ^ (29 - msb (v.x.natAbs ||| v.y.natAbs)) :=
            Nat.mul_le_mul_right _ h
    · right
      rw [Int.natAbs_mul]
      have he : ((2:Int) ^ (29 - msb (v.x.natAbs ||| v.y.natAbs))).natAbs
          = 2 ^ (29 - msb (v.x.natAbs ||| v.y.natAbs)) := by
        rw [Int.natAbs_pow]; rfl
      rw [he]
      calc 2 ^ 29 = 2 ^ msb (v.x.natAbs ||| v.y.natAbs)
            * 2 ^ (29 - msb (v.x.natAbs ||| v.y.natAbs)) := by
            rw [← pow_add]; congr 1; omega
      _ ≤ v.y.natAbs * 2 ^ (29 - msb (v.x.natAbs ||| v.y.natAbs)) :=
            Nat.mul_le_mul_right _ h
  · rcases hor with h | h
    · left
      exact sar_mag v.x _ 29 (by
        have : 29 + (msb (v.x.natAbs ||| v.y.natAbs) - 29)
            = msb (v.x.natAbs ||| v.y.natAbs) := by omega
        rw [this]; exact h)
    · right
      exact sar_mag v.y _ 29 (by
        have : 29 + (msb (v.x.natAbs ||| v.y.natAbs) - 29)
            = msb (v.x.natAbs ||| v.y.natAbs) := by omega
        rw [this]; exact h)

/-- Properties of the octant reduction on a vector whose larger coordinate
magnitude is at least `2^29`: the reduced state has `x ≥ 2^29`, `|y| ≤ x`,
and the initial angle is one of `0`, `±PI/2`, `±PI` (with the sign of `y`
fixed in the `±PI` cases). -/
theorem polOctant_props (x y : Int)
    (hmag : 2 ^ 29 ≤ x.natAbs ∨ 2 ^ 29 ≤ y.natAbs) :
    2 ^ 29 ≤ (polOctant x y).1 ∧
      -(polOctant x y).1 ≤ (polOctant x y).2.1 ∧
      (polOctant x y).2.1 ≤ (polOctant x y).1 ∧
      ((polOctant x y).2.2 = 0 ∨ (polOctant x y).2.2 = anglePI2 ∨
        (polOctant x y).2.2 = -anglePI2 ∨
        ((polOctant x y).2.2 = anglePI ∧ (polOctant x y).2.1 ≤ 0) ∨
        ((polOctant x y).2.2 = -anglePI ∧ 0 ≤ (polOctant x y).2.1)) := by
  simp only [polOctant]
  split_ifs with hc1 hc2 hc3 hc4 <;> dsimp only <;>
    refine ⟨by omega, by omega, by omega, ?_⟩
  · right; left; rfl
  · right; right; right; left; exact ⟨rfl, by omega⟩
  · right; right; right; right; exact ⟨rfl, by omega⟩
  · right; right; left; rfl
  · left; rfl

/-- Range of the pseudo-polarized angle for a state whose larger coordinate
magnitude is at least `2^29` (as established by `ft_trig_prenorm`): the
certified interval checker covers all five octant start configurations. -/
theorem pseudoPolarize_range (v : Vec)
    (hmag : 2 ^ 29 ≤ v.x.natAbs ∨ 2 ^ 29 ≤ v.y.natAbs) :
    -anglePI ≤ (pseudoPolarize v).y ∧ (pseudoPolarize v).y ≤ anglePI := by
  obtain ⟨hX, hYlo, hYhi, hθ⟩ := polOctant_props v.x v.y hmag
  show -anglePI ≤ roundTheta (polIterGo 22 1 (polOctant v.x v.y).1
      (polOctant v.x v.y).2.1 (polOctant v.x v.y).2.2).2.2 ∧
    roundTheta (polIterGo 22 1 (polOctant v.x v.y).1
      (polOctant v.x v.y).2.1 (polOctant v.x v.y).2.2).2.2 ≤ anglePI
  rcases hθ with h0 | hP2 | hM2 | ⟨hPI, hY0⟩ | ⟨hMPI, hY0⟩
  · have hr := exploreAtan_sound 60 1 (-(2 ^ 60)) (2 ^ 60) 0
      (polOctant v.x v.y).1 (polOctant v.x v.y).2.1 exploreRun_zero (le_refl 1)
      hX hYlo hYhi (by linarith) (by linarith)
    rw [show (23:Nat) - 1 = 22 from rfl] at hr
    rw [h0]
    exact hr
  · have hr := exploreAtan_sound 60 1 (-(2 ^ 60)) (2 ^ 60) anglePI2
      (polOctant v.x v.y).1 (polOctant v.x v.y).2.1 exploreRun_pi2 (le_refl 1)
      hX hYlo hYhi (by linarith) (by linarith)
    rw [show (23:Nat) - 1 = 22 from rfl] at hr
    rw [hP2]
    exact hr
  · have hr := exploreAtan_sound 60 1 (-(2 ^ 60)) (2 ^ 60) (-anglePI2)
      (polOctant v.x v.y).1 (polOctant v.x v.y).2.1 exploreRun_mpi2 (le_refl 1)
      hX hYlo hYhi (by linarith) (by linarith)
    rw [show (23:Nat) - 1 = 22 from rfl] at hr
    rw [hM2]
    exact hr
  · have hr := exploreAtan_sound 60 1 (-(2 ^ 60)) 0 anglePI
      (polOctant v.x v.y).1 (polOctant v.x v.y).2.1 exploreRun_pi (le_refl 1)
      hX hYlo hYhi (by linarith) (by linarith)
    rw [show (23:Nat) - 1 = 22 from rfl] at hr
    rw [hPI]
    exact hr
  · have hr := exploreAtan_sound 60 1 0 (2 ^ 60) (-anglePI)
      (polOctant v.x v.y).1 (polOctant v.x v.y).2.1 exploreRun_mpi (le_refl 1)
      hX hYlo hYhi (by linarith) (by linarith)
    rw [show (23:Nat) - 1 = 22 from rfl] at hr
    rw [hMPI]
    exact hr

/-! ## Claim theorems -/

/-- C4 counterexample: `PVG_FT_Atan2(-65536, 0)` returns `-180°·2^16`, not the
claimed `+180°·2^16`. -/
theorem claim4_counterexample :
    ftAtan2 (-65536) 0 = -11796480 ∧ ftAtan2 (-65536) 0 ≠ 11796480 := by decide

/-- C4 (amended): the four axis cases of `PVG_FT_Atan2` evaluate to
`0`, `0`, `90°·2^16` (exactly) and `-180°·2^16` — the negative x-axis yields
minus half a turn, not plus. -/
theorem claim4_amended :
    ftAtan2 0 0 = 0 ∧ ftAtan2 65536 0 = 0 ∧ ftAtan2 0 65536 = 5898240 ∧
    ftAtan2 (-65536) 0 = -11796480 := by decide

/-- C5 counterexample: for a degenerate divisor, `PVG_FT_MulDiv` does not
always return the positive saturation value: with operands of opposite signs
it returns `-0x7FFFFFFF`. -/
theorem claim5_counterexample :
    mulDiv 65536 (-65536) 0 = -2147483647 ∧ mulDiv 65536 (-65536) 0 ≠ 2147483647 := by decide

/-- C5 (amended): for the degenerate divisor `c = 0` (the only way `c ≤ 0`
after sign extraction), `PVG_FT_MulDiv` returns `±0x7FFFFFFF`: positive when
`a` and `b` have equal sign status, negative when exactly one is negative;
no error is raised. -/
theorem claim5_amended (a b : Int) :
    mulDiv a b 0 = if ((a < 0) ↔ (b < 0)) then 2147483647 else -2147483647 := by
  simp only [mulDiv]
  norm_num
  split_ifs <;> simp_all <;> omega

/-- C6: `PVG_FT_DivFix(a, 0)` saturates with the sign of `a`;
`PVG_FT_DivFix(0, b) = 0` for `b ≠ 0`; and for `b ≠ 0` the result is a
nearest integer to `a·65536/b` (`|result·b - a·65536| ≤ |b|/2`). -/
theorem claim6_divfix (a b : Int) :
    (b = 0 → divFix a b = if a < 0 then -2147483647 else 2147483647) ∧
    (a = 0 → b ≠ 0 → divFix a b = 0) ∧
    (b ≠ 0 → 2 * |divFix a b * b - a * 65536| ≤ |b|) := by
  refine ⟨?_, ?_, fun hb => divFix_round a b hb⟩
  · intro hb; subst hb
    simp only [divFix]
    split_ifs <;> simp_all <;> omega
  · intro ha hb; subst ha
    have habs : 2 * (|divFix 0 b| * |b|) ≤ |b| := by
      have h := divFix_round 0 b hb
      rw [show divFix 0 b * b - 0 * 65536 = divFix 0 b * b from by ring, abs_mul] at h
      exact h
    have hbpos : (1:Int) ≤ |b| := by
      rcases lt_trichotomy b 0 with h | h | h <;> simp [abs_of_neg, abs_of_pos, h] <;> omega
    have hD : |divFix 0 b| = 0 := by nlinarith [abs_nonneg (divFix 0 b)]
    exact abs_eq_zero.mp hD

/-- C6 witness: the three cases at concrete inputs. -/
theorem claim6_witness :
    divFix (-5) 0 = -2147483647 ∧ divFix 0 7 = 0 ∧
    2 * |divFix 7 3 * 3 - 7 * 65536| ≤ |(3:Int)| := by
  refine ⟨?_, (claim6_divfix 0 7).2.1 rfl (by decide), (claim6_divfix 7 3).2.2 (by decide)⟩
  have h := (claim6_divfix (-5) 0).1 rfl
  simpa using h

/-- C7: `PVG_FT_Angle_Diff(a1, a2)` is `a2 - a1` shifted by whole turns into
`(-180°·2^16, 180°·2^16]`, and `angle_diff(a, a + θ)` equals `θ` reduced into
that interval (so it is within one resolution unit of it). -/
theorem claim7_angle_diff (a1 a2 a θ : Int) :
    (-anglePI < angleDiff a1 a2 ∧ angleDiff a1 a2 ≤ anglePI) ∧
    (∃ k : Int, angleDiff a1 a2 = (a2 - a1) + k * angle2PI) ∧
    |angleDiff a (a + θ) - reduceAngle θ| ≤ 1 := by
  refine ⟨(angleDiff_spec a1 a2).1, (angleDiff_spec a1 a2).2, ?_⟩
  rw [angleDiff_eq_reduce a (a + θ), show a + θ - a = θ from by ring]
  simp

/-- C9 counterexample: `PVG_FT_Vector_Polarize` on the zero vector returns
early WITHOUT writing the angle out-parameter — the previous value (here 9)
survives, so the operation does not "return angle 0". -/
theorem claim9_counterexample :
    vectorPolarize ⟨0, 0⟩ 7 9 = (7, 9) ∧ (vectorPolarize ⟨0, 0⟩ 7 9).2 ≠ 0 := by decide

/-- C9 (amended): on the zero vector, `PVG_FT_Atan2` returns 0 directly and
`PVG_FT_Vector_Polarize` returns early leaving both out-parameters
unmodified; neither runs the CORDIC engine. -/
theorem claim9_amended (len ang : Int) :
    vectorPolarize ⟨0, 0⟩ len ang = (len, ang) ∧ ftAtan2 0 0 = 0 := by
  constructor
  · simp [vectorPolarize]
  · rfl

/-- C10: for every non-zero input vector, the angle returned by
`PVG_FT_Atan2` (and the angle written by `PVG_FT_Vector_Polarize`) is an
integer multiple of 32 angle units, because the accumulated angle is rounded
to a multiple of 32 before being returned. -/
theorem claim10_granularity (dx dy : Int) (h : ¬(dx = 0 ∧ dy = 0)) :
    (32 : Int) ∣ ftAtan2 dx dy ∧
    ∀ len ang : Int, (32 : Int) ∣ (vectorPolarize ⟨dx, dy⟩ len ang).2 := by
  constructor
  · simp only [ftAtan2, if_neg h, pseudoPolarize]
    exact roundTheta_dvd _
  · intro len ang
    simp only [vectorPolarize, if_neg h, pseudoPolarize]
    exact roundTheta_dvd _

/-- C10 witness: concrete non-zero input. -/
theorem claim10_witness :
    (32 : Int) ∣ ftAtan2 3 4 ∧ (32 : Int) ∣ (vectorPolarize ⟨3, 4⟩ 5 6).2 :=
  ⟨(claim10_granularity 3 4 (by decide)).1, (claim10_granularity 3 4 (by decide)).2 5 6⟩

/-- C2 counterexample: `from_polar(*polarize((2,2)))` reconstructs `(1,1)`,
a relative error of 1/2, far above the claimed `2^-10`
(`2^20 · ‖r - v‖² > ‖v‖²`). -/
theorem claim2_counterexample :
    (vectorPolarize ⟨2, 2⟩ 0 0 = (2, 2949120) ∧
     vectorFromPolar 2 2949120 = ⟨1, 1⟩) ∧
    2 ^ 20 * ((2 - 1) ^ 2 + (2 - 1) ^ 2) > (2:Int) ^ 2 + 2 ^ 2 := by decide

/-- One pass of the first rotate-reduction loop, characterized below: with a
sufficient budget it applies clockwise quarter turns while adding multiples
of 90 degrees to the angle, stopping as soon as the angle is at least -45
degrees. -/
theorem rotRed1Go_spec (n : Nat) : ∀ x y θ : Int, -anglePI4 - θ ≤ ((n : Int) + 1) * anglePI2 →
    ∃ k : Nat, rotRed1Go (n+1) x y θ =
        (((qturnInv^[k] (x, y)).1, (qturnInv^[k] (x, y)).2, θ + k * anglePI2)) ∧
      -anglePI4 ≤ θ + k * anglePI2 ∧
      (k = 0 ∨ θ + k * anglePI2 ≤ anglePI4) ∧
      (¬ θ < -anglePI4 → k = 0) := by
  induction n with
  | zero =>
    intro x y θ h
    by_cases hc : θ < -anglePI4
    · refine ⟨1, ?_, ?_, ?_, fun hn => absurd hc hn⟩
      · simp only [rotRed1Go, if_pos hc, Function.iterate_one, qturnInv]
        push_cast; ring_nf
      · push_cast; norm_num [anglePI4, anglePI2, anglePI] at h ⊢; omega
      · right; push_cast; norm_num [anglePI4, anglePI2, anglePI] at hc ⊢; omega
    · refine ⟨0, ?_, ?_, Or.inl rfl, fun _ => rfl⟩
      · simp only [rotRed1Go, Function.iterate_zero, id_eq, if_neg hc]
        norm_num
      · norm_num [anglePI4, anglePI2, anglePI] at hc ⊢; omega
  | succ n ih =>
    intro x y θ h
    by_cases hc : θ < -anglePI4
    · have h2 : -anglePI4 - (θ + anglePI2) ≤ ((n : Int) + 1) * anglePI2 := by
        push_cast at h ⊢; norm_num [anglePI4, anglePI2, anglePI] at h hc ⊢; omega
      obtain ⟨k, hk, hge, hlt, _⟩ := ih y (-x) (θ + anglePI2) h2
      refine ⟨k + 1, ?_, ?_, ?_, fun hn => absurd hc hn⟩
      · rw [show rotRed1Go (n+1+1) x y θ = rotRed1Go (n+1) y (-x) (θ + anglePI2) from by
          simp only [rotRed1Go, if_pos hc]]
        rw [hk]
        have hit : qturnInv^[k+1] (x, y) = qturnInv^[k] (y, -x) := by
          rw [Function.iterate_succ_apply]; rfl
        rw [hit]
        push_cast; ring_nf
      · push_cast at hge ⊢; linarith
      · right
        rcases hlt with h0 | hlt
        · subst h0
          push_cast
          norm_num [anglePI4, anglePI2, anglePI] at hc ⊢; omega
        · push_cast at hlt ⊢; linarith
    · refine ⟨0, ?_, ?_, Or.inl rfl, fun _ => rfl⟩
      · simp only [rotRed1Go, Function.iterate_zero, id_eq, if_neg hc]
        norm_num
      · norm_num [anglePI4, anglePI2, anglePI] at hc ⊢; omega

theorem rotRed2Go_spec (n : Nat) : ∀ x y θ : Int, θ - anglePI4 ≤ ((n : Int) + 1) * anglePI2 →
    ∃ k : Nat, rotRed2Go (n+1) x y θ =
        (((qturn^[k] (x, y)).1, (qturn^[k] (x, y)).2, θ - k * anglePI2)) ∧
      θ - k * anglePI2 ≤ anglePI4 ∧
      (k = 0 ∨ -anglePI4 ≤ θ - k * anglePI2) ∧
      (¬ θ > anglePI4 → k = 0) := by
  induction n with
  | zero =>
    intro x y θ h
    by_cases hc : θ > anglePI4
    · refine ⟨1, ?_, ?_, ?_, fun hn => absurd hc hn⟩
      · simp only [rotRed2Go, if_pos hc, Function.iterate_one, qturn]
        push_cast; ring_nf
      · push_cast; norm_num [anglePI4, anglePI2, anglePI] at h ⊢; omega
      · right; push_cast; norm_num [anglePI4, anglePI2, anglePI] at hc ⊢; omega
    · refine ⟨0, ?_, ?_, Or.inl rfl, fun _ => rfl⟩
      · simp only [rotRed2Go, Function.iterate_zero, id_eq, if_neg hc]
        norm_num
      · norm_num [anglePI4, anglePI2, anglePI] at hc ⊢; omega
  | succ n ih =>
    intro x y θ h
    by_cases hc : θ > anglePI4
    · have h2 : (θ - anglePI2) - anglePI4 ≤ ((n : Int) + 1) * anglePI2 := by
        push_cast at h ⊢; norm_num [anglePI4, anglePI2, anglePI] at h hc ⊢; omega
      obtain ⟨k, hk, hge, hlt, _⟩ := ih (-y) x (θ - anglePI2) h2
      refine ⟨k + 1, ?_, ?_, ?_, fun hn => absurd hc hn⟩
      · rw [show rotRed2Go (n+1+1) x y θ = rotRed2Go (n+1) (-y) x (θ - anglePI2) from by
          simp only [rotRed2Go, if_pos hc]]
        rw [hk]
        have hit : qturn^[k+1] (x, y) = qturn^[k] (-y, x) := by
          rw [Function.iterate_succ_apply]; rfl
        rw [hit]
        push_cast; ring_nf
      · push_cast at hge ⊢; linarith
      · right
        rcases hlt with h0 | hlt
        · subst h0
          push_cast
          norm_num [anglePI4, anglePI2, anglePI] at hc ⊢; omega
        · push_cast at hlt ⊢; linarith
    · refine ⟨0, ?_, ?_, Or.inl rfl, fun _ => rfl⟩
      · simp only [rotRed2Go, Function.iterate_zero, id_eq, if_neg hc]
        norm_num
      · norm_num [anglePI4, anglePI2, anglePI] at hc ⊢; omega

theorem rotReduce_spec (x y θ : Int) :
    ∃ k : Int,
      rotRed2 (rotRed1 x y θ).1 (rotRed1 x y θ).2.1 (rotRed1 x y θ).2.2 =
        ((qturnZ k (x, y)).1, (qturnZ k (x, y)).2, θ - k * anglePI2) ∧
      -anglePI4 ≤ θ - k * anglePI2 ∧ θ - k * anglePI2 ≤ anglePI4 := by
  have hb1 : -anglePI4 - θ ≤
      ((((-anglePI4 - θ).toNat / anglePI2.toNat : ℕ) : Int) + 1) * anglePI2 := by
    norm_num [anglePI4, anglePI2, anglePI]; omega
  obtain ⟨k1, hk1, hge1, hlt1, hz1⟩ := rotRed1Go_spec _ x y θ hb1
  have hred1 : rotRed1 x y θ = ((qturnInv^[k1] (x, y)).1, (qturnInv^[k1] (x, y)).2,
      θ + k1 * anglePI2) := hk1
  have hb2 : (θ + k1 * anglePI2) - anglePI4 ≤
      ((((θ + k1 * anglePI2 - anglePI4).toNat / anglePI2.toNat : ℕ) : Int) + 1) * anglePI2 := by
    norm_num [anglePI4, anglePI2, anglePI]; omega
  obtain ⟨k2, hk2, hle2, hlt2, hz2⟩ :=
    rotRed2Go_spec _ (qturnInv^[k1] (x, y)).1 (qturnInv^[k1] (x, y)).2 (θ + k1 * anglePI2) hb2
  have hcase : k1 = 0 ∨ k2 = 0 := by
    by_cases h1 : k1 = 0
    · exact Or.inl h1
    · right
      apply hz2
      rcases hlt1 with h | h
      · exact absurd h h1
      · omega
  have hθeq : θ + (k1:Int) * anglePI2 - (k2:Int) * anglePI2 =
      θ - ((k2:Int) - (k1:Int)) * anglePI2 := by ring
  refine ⟨(k2 : Int) - (k1 : Int), ?_, ?_, ?_⟩
  · rw [hred1]
    simp only
    rw [show rotRed2 (qturnInv^[k1] (x, y)).1 (qturnInv^[k1] (x, y)).2 (θ + k1 * anglePI2) =
        rotRed2Go ((θ + k1 * anglePI2 - anglePI4).toNat / anglePI2.toNat + 1)
          (qturnInv^[k1] (x, y)).1 (qturnInv^[k1] (x, y)).2 (θ + k1 * anglePI2) from rfl]
    rw [hk2, hθeq]
    rcases hcase with h0 | h0
    · subst h0
      simp only [Function.iterate_zero, id_eq, Nat.cast_zero, sub_zero, qturnZ,
        if_pos (Int.natCast_nonneg k2), Int.toNat_natCast]
    · subst h0
      by_cases hk10 : k1 = 0
      · subst hk10
        simp [qturnZ]
      · simp only [Function.iterate_zero, id_eq, Nat.cast_zero, qturnZ,
          if_neg (by omega : ¬ (0:Int) ≤ 0 - (k1:Int)),
          show (-((0:Int) - (k1:Int))).toNat = k1 from by omega]
  · rw [show θ - ((k2:Int) - (k1:Int)) * anglePI2 =
        θ + (k1:Int) * anglePI2 - (k2:Int) * anglePI2 from by ring]
    rcases hcase with h0 | h0 <;> subst h0 <;> rcases hlt2 with h | h <;>
      norm_num [anglePI4, anglePI2, anglePI] at hge1 hle2 h ⊢ <;> omega
  · rw [show θ - ((k2:Int) - (k1:Int)) * anglePI2 =
        θ + (k1:Int) * anglePI2 - (k2:Int) * anglePI2 from by ring]
    exact hle2

/-- C8 counterexample: the angle-reduction phase of `ft_trig_pseudo_rotate`
leaves `-45°·2^16` unchanged, so the residual interval is NOT `(-45°, 45°]`;
and the micro-step loop runs 22 iterations, not 21 (21 iterations give a
different result at the concrete state below). -/
theorem claim8_counterexample :
    ((rotRed2 (rotRed1 100 200 (-2949120)).1 (rotRed1 100 200 (-2949120)).2.1
        (rotRed1 100 200 (-2949120)).2.2).2.2 = -2949120 ∧
      ¬ (-2949120 : Int) < -2949120) ∧
    rotIterGo 21 1 14408027 0 0 ≠ rotIterGo 22 1 14408027 0 0 := by decide

/-- C8 (amended): `ft_trig_pseudo_rotate` first reduces the target angle into
the CLOSED interval `[-45°, 45°]` by exact 90° quarter turns of the vector
(while the angle exceeds ±45°), then runs micro-steps for i = 1 to 22 (not
21), each choosing add versus subtract by the sign of the remaining angle and
updating x, y and the remaining angle with the i-th arctangent table entry. -/
theorem claim8_amended (v : Vec) (θ : Int) :
    (∃ k : Int,
      rotRed2 (rotRed1 v.x v.y θ).1 (rotRed1 v.x v.y θ).2.1 (rotRed1 v.x v.y θ).2.2 =
        ((qturnZ k (v.x, v.y)).1, (qturnZ k (v.x, v.y)).2, θ - k * anglePI2) ∧
      -anglePI4 ≤ θ - k * anglePI2 ∧ θ - k * anglePI2 ≤ anglePI4) ∧
    (pseudoRotate v θ =
      ⟨(rotIterGo 22 1
          (rotRed2 (rotRed1 v.x v.y θ).1 (rotRed1 v.x v.y θ).2.1 (rotRed1 v.x v.y θ).2.2).1
          (rotRed2 (rotRed1 v.x v.y θ).1 (rotRed1 v.x v.y θ).2.1 (rotRed1 v.x v.y θ).2.2).2.1
          (rotRed2 (rotRed1 v.x v.y θ).1 (rotRed1 v.x v.y θ).2.1 (rotRed1 v.x v.y θ).2.2).2.2).1,
       (rotIterGo 22 1
          (rotRed2 (rotRed1 v.x v.y θ).1 (rotRed1 v.x v.y θ).2.1 (rotRed1 v.x v.y θ).2.2).1
          (rotRed2 (rotRed1 v.x v.y θ).1 (rotRed1 v.x v.y θ).2.1 (rotRed1 v.x v.y θ).2.2).2.1
          (rotRed2 (rotRed1 v.x v.y θ).1 (rotRed1 v.x v.y θ).2.1 (rotRed1 v.x v.y θ).2.2).2.2).2.1⟩) ∧
    (∀ (n i : Nat) (x y φ : Int), rotIterGo (n+1) i x y φ =
      if φ < 0 then
        rotIterGo n (i+1) (x + sar (y + 2^(i-1)) i) (y - sar (x + 2^(i-1)) i) (φ + tbl i)
      else
        rotIterGo n (i+1) (x - sar (y + 2^(i-1)) i) (y + sar (x + 2^(i-1)) i) (φ - tbl i)) := by
  refine ⟨rotReduce_spec v.x v.y θ, rfl, fun n i x y φ => rfl⟩

/-- C2 (amended): reconstruction through `polarize` then `from_polar` is NOT
within relative error 2^-10 for every non-zero vector (see the
counterexample); on the unit-grid axis family `v = (k·65536, 0)`,
`1 ≤ k ≤ 16`, the relative-error bound does hold
(`2^20·‖r - v‖² ≤ ‖v‖²`). -/
theorem claim2_amended : ∀ k : ℕ, k < 16 →
    2 ^ 20 * (((vectorFromPolar (vectorPolarize ⟨((k:Int)+1) * 65536, 0⟩ 0 0).1
                  (vectorPolarize ⟨((k:Int)+1) * 65536, 0⟩ 0 0).2).x - ((k:Int)+1) * 65536) ^ 2 +
               ((vectorFromPolar (vectorPolarize ⟨((k:Int)+1) * 65536, 0⟩ 0 0).1
                  (vectorPolarize ⟨((k:Int)+1) * 65536, 0⟩ 0 0).2).y) ^ 2)
      ≤ (((k:Int)+1) * 65536) ^ 2 := by decide

/-- C2 witness: the amended bound instantiated at `k = 2`, i.e. `v = (3·65536, 0)`. -/
theorem claim2_witness :
    2 ^ 20 * (((vectorFromPolar (vectorPolarize ⟨(((2:ℕ):Int)+1) * 65536, 0⟩ 0 0).1
                  (vectorPolarize ⟨(((2:ℕ):Int)+1) * 65536, 0⟩ 0 0).2).x -
                 (((2:ℕ):Int)+1) * 65536) ^ 2 +
               ((vectorFromPolar (vectorPolarize ⟨(((2:ℕ):Int)+1) * 65536, 0⟩ 0 0).1
                  (vectorPolarize ⟨(((2:ℕ):Int)+1) * 65536, 0⟩ 0 0).2).y) ^ 2)
      ≤ ((((2:ℕ):Int)+1) * 65536) ^ 2 := claim2_amended 2 (by decide)

/-- C3 counterexample: `PVG_FT_Atan2(-65536, 0)` returns exactly
`-180°·2^16 = -11796480`, so the claimed half-open interval
`(-11796480, 11796480]` excludes a value the code actually produces. -/
theorem claim3_counterexample :
    ftAtan2 (-65536) 0 = -11796480 ∧ ¬ (-11796480 < ftAtan2 (-65536) 0) := by
  constructor
  · decide
  · decide

/-- C3 (amended): every angle produced by a polarization operation lies in
the closed interval `[-180°·2^16, 180°·2^16]`: both the value returned by
`PVG_FT_Atan2` (for every input) and the angle out-parameter written by
`PVG_FT_Vector_Polarize` (for every non-zero input). -/
theorem claim3_amended (dx dy : Int) :
    (-anglePI ≤ ftAtan2 dx dy ∧ ftAtan2 dx dy ≤ anglePI) ∧
      (∀ len ang : Int, ¬(dx = 0 ∧ dy = 0) →
        -anglePI ≤ (vectorPolarize ⟨dx, dy⟩ len ang).2 ∧
          (vectorPolarize ⟨dx, dy⟩ len ang).2 ≤ anglePI) := by
  constructor
  · simp only [ftAtan2]
    split_ifs with h
    · norm_num [anglePI]
    · exact pseudoPolarize_range _ (prenorm_mag ⟨dx, dy⟩ h)
  · intro len ang h
    simp only [vectorPolarize]
    rw [if_neg h]
    exact pseudoPolarize_range _ (prenorm_mag ⟨dx, dy⟩ h)

/-- C3 witness: the amended range theorem instantiated on the concrete
vector `(3, 4)`. -/
theorem claim3_witness :
    (-anglePI ≤ ftAtan2 3 4 ∧ ftAtan2 3 4 ≤ anglePI) ∧
      (-anglePI ≤ (vectorPolarize ⟨3, 4⟩ 5 6).2 ∧
        (vectorPolarize ⟨3, 4⟩ 5 6).2 ≤ anglePI) :=
  ⟨(claim3_amended 3 4).1, (claim3_amended 3 4).2 5 6 (by decide)⟩

end PVGFT
